import Mathlib

/-!
Verification development for `corenet/engine/utils.py`.

The Python module is shallowly embedded: Python values that flow through the
helpers are modelled by inductive types, machine floats by exact rationals,
fallible code by `Except`/`Option`, and the opaque `log_writer` collaborator
by the list of `add_scalar` calls a function performs.
-/

namespace Corenet

/-- A Python value as it may appear inside a metrics dictionary: a number, a
string, `None`, a list, or a nested `dict` with string keys (the only
`MutableMapping` that occurs here). -/
inductive MVal : Type where
  | num (q : ℚ)
  | str (s : String)
  | vnone
  | vlist (elems : List MVal)
  | vdict (entries : List (String × MVal))

/-- Python `isinstance(v, Number)` for an `MVal`. -/
def isNumber : MVal → Bool
  | .num _ => true
  | _ => false

/-- Python truthiness (`bool(v)`) for an `MVal`: zero, the empty string,
`None`, the empty list and the empty dict are falsy, everything else truthy. -/
def truthy : MVal → Bool
  | .num q => q != 0
  | .str s => s != ""
  | .vnone => false
  | .vlist elems => !elems.isEmpty
  | .vdict entries => !entries.isEmpty

/-- One step of building a Python `dict` from a sequence of key/value pairs:
if the key is already present its value is updated in place (keeping the
key's original position), otherwise the pair is appended. -/
def insertPair (acc : List (String × α)) (kv : String × α) : List (String × α) :=
  if acc.any (fun p => p.1 == kv.1) then
    acc.map (fun p => if p.1 == kv.1 then (p.1, kv.2) else p)
  else acc ++ [kv]

/-- Python `dict(items)` on a list of key/value pairs: insertion order is the order
of first occurrence of each key, the value is the last one given for it. -/
def dictOfList (items : List (String × α)) : List (String × α) :=
  items.foldl insertPair []

/-- The `items` list built by the loop of `flatten` (source lines 93-99):
for every `(key, value)` of the dictionary, the new key is
`parent_key + separator + key` when `parent_key` is truthy and `key`
otherwise; mapping values are recursively flattened (the recursive call
returns a `dict`, whose `.items()` are spliced in), other values are
appended as leaves. -/
def flattenItems : List (String × MVal) → String → String → List (String × MVal)
  | [], _, _ => []
  | (key, value) :: rest, parent_key, separator =>
    (match value with
     | .vdict d2 =>
       dictOfList (flattenItems d2
         (if parent_key = "" then key else parent_key ++ separator ++ key) separator)
     | .num q =>
       [((if parent_key = "" then key else parent_key ++ separator ++ key), .num q)]
     | .str s =>
       [((if parent_key = "" then key else parent_key ++ separator ++ key), .str s)]
     | .vnone =>
       [((if parent_key = "" then key else parent_key ++ separator ++ key), .vnone)]
     | .vlist elems =>
       [((if parent_key = "" then key else parent_key ++ separator ++ key),
         .vlist elems)]) ++ flattenItems rest parent_key separator

/-- The function `flatten(dictionary, parent_key, separator)` (source lines 78-100):
builds the items list and returns `dict(items)`. -/
def flatten (dictionary : List (String × MVal)) (parent_key : String)
    (separator : String) : List (String × MVal) :=
  dictOfList (flattenItems dictionary parent_key separator)

/-- The list `flattenItems` computes, without the intermediate `dict(...)` applications: the raw
concatenation of all leaf pairs, in source order. -/
def flattenRaw : List (String × MVal) → String → String → List (String × MVal)
  | [], _, _ => []
  | (key, value) :: rest, parent_key, separator =>
    (match value with
     | .vdict d2 =>
       flattenRaw d2
         (if parent_key = "" then key else parent_key ++ separator ++ key) separator
     | .num q =>
       [((if parent_key = "" then key else parent_key ++ separator ++ key), .num q)]
     | .str s =>
       [((if parent_key = "" then key else parent_key ++ separator ++ key), .str s)]
     | .vnone =>
       [((if parent_key = "" then key else parent_key ++ separator ++ key), .vnone)]
     | .vlist elems =>
       [((if parent_key = "" then key else parent_key ++ separator ++ key),
         .vlist elems)]) ++ flattenRaw rest parent_key separator

/-- Every maximal path of keys through nested dictionaries down to a
non-mapping leaf, with the leaf value it reaches, in source order. -/
def leafPaths : List (String × MVal) → List (List String × MVal)
  | [] => []
  | (key, value) :: rest =>
    (match value with
     | .vdict d2 => (leafPaths d2).map (fun pv => (key :: pv.1, pv.2))
     | .num q => [([key], MVal.num q)]
     | .str s => [([key], MVal.str s)]
     | .vnone => [([key], MVal.vnone)]
     | .vlist elems => [([key], MVal.vlist elems)]) ++ leafPaths rest

/-- Joining a path of keys with a separator, as the specification words it:
the keys of the path separated by the separator. -/
def joinPath (separator : String) : List String → String
  | [] => ""
  | [k] => k
  | k :: rest => k ++ separator ++ joinPath separator rest

/-- The flat dictionary the specification describes: one entry per maximal
leaf path, keyed by the path's keys joined with the separator. -/
def specFlatten (d : List (String × MVal)) (separator : String) :
    List (String × MVal) :=
  (leafPaths d).map (fun pv => (joinPath separator pv.1, pv.2))

/-- Every key of the dictionary, at every nesting level, is a nonempty
string. -/
def keysNonempty : List (String × MVal) → Bool
  | [] => true
  | (key, value) :: rest =>
    (key != "") &&
    (match value with
     | .vdict d2 => keysNonempty d2
     | _ => true) && keysNonempty rest

/-! ## Python `round` on exact values

Machine floats are modelled as exact rationals; `round(x, n)` rounds to the
nearest multiple of `10 ^ (-n)`, ties to the even integer multiple. -/

/-- Round a rational to the nearest integer, ties to even. -/
def rndHalfEven (q : ℚ) : ℤ :=
  let f : ℤ := ⌊q⌋
  let frac : ℚ := q - (f : ℚ)
  if frac < 1 / 2 then f
  else if 1 / 2 < frac then f + 1
  else if f % 2 = 0 then f else f + 1

/-- Python `round(q, n)` for a nonnegative digit count `n`. -/
def pyRound (q : ℚ) (n : ℕ) : ℚ :=
  (rndHalfEven (q * (10 : ℚ) ^ n) : ℚ) / (10 : ℚ) ^ n

/-! ## The metric-dispatch helpers

The opaque `log_writer` collaborator only ever receives `add_scalar` calls;
each function is embedded as the list of `add_scalar(name, value, step)`
calls it performs, in order. -/

/-- One `add_scalar(name, value, step)` call on a log writer. -/
abbrev ScalarCall := String × MVal × ℤ

/-- The `lrs` argument of `log_metrics`/`step_log_metrics`: a float or a
list of floats. -/
inductive LrsArg where
  | scalar (q : ℚ)
  | list (l : List ℚ)

/-- The statement `if not isinstance(lrs, list): lrs = [lrs]` — a scalar learning rate is
rebound locally to a one-element list. -/
def normLrs : LrsArg → List ℚ
  | .scalar q => [q]
  | .list l => l

/-- The `add_scalar("LR/Group-{g_id}", round(lr_val, 6), step)` calls of the
`for g_id, lr_val in enumerate(lrs)` loop. -/
def lrGroupCalls (lrs : List ℚ) (step : ℤ) : List ScalarCall :=
  lrs.enum.map (fun p => ("LR/Group-" ++ toString p.1, MVal.num (pyRound p.2 6), step))

/-- The metric-dictionary part of `step_log_metrics` (source lines 122-127):
the metrics are flattened and every value that is a `Number` or truthy is
dispatched under its flattened key. -/
def metricCalls (step : ℤ) (metrics : List (String × MVal)) : List ScalarCall :=
  (flatten metrics "" "/").filterMap
    (fun kv => if isNumber kv.2 || truthy kv.2 then some (kv.1, kv.2, step) else none)

/-- The function `step_log_metrics(lrs, log_writer, step, metrics)` (source lines
103-127), as the list of `add_scalar` calls it performs. -/
def step_log_metrics (lrs : LrsArg) (step : ℤ)
    (metrics : Option (List (String × MVal))) : List ScalarCall :=
  lrGroupCalls (normLrs lrs) step ++
    match metrics with
    | none => []
    | some m => metricCalls step m

/-- The function `log_metrics(...)` (source lines 57-75), as the list of `add_scalar`
calls it performs. The loss and checkpoint-metric parameters are kept in the
signature exactly as in the source. -/
def log_metrics (lrs : LrsArg) (train_loss : ℚ) (val_loss : ℚ) (epoch : ℤ)
    (best_metric : ℚ) (val_ema_loss : Option ℚ) (ckpt_metric_name : Option String)
    (train_ckpt_metric : Option ℚ) (val_ckpt_metric : Option ℚ)
    (val_ema_ckpt_metric : Option ℚ) : List ScalarCall :=
  lrGroupCalls (normLrs lrs) epoch ++
    [("Common/Best Metric", MVal.num (pyRound best_metric 2), epoch)]

/-! ## `get_batch_size` -/

/-- The Python exceptions the embedded helpers can raise. -/
inductive PyErr where
  | notImplemented (msg : String)
  | indexError
  | validationError (msg : String)
deriving DecidableEq, Repr

/-- The argument of `get_batch_size`: a tensor (only its shape matters), a
dict with string keys, a list, or a value of any other type. -/
inductive BatchInput where
  | tensor (shape : List ℕ)
  | dict (entries : List (String × BatchInput))
  | list (elems : List BatchInput)
  | other (tyName : String)

/-- Python dict lookup `x[key]` on an association list (keys are unique in a
real dict; the first binding wins). -/
def plookup (key : String) : List (String × α) → Option α
  | [] => none
  | (k, v) :: rest => if k = key then some v else plookup key rest

/-- The value of the first key among `("image", "video", "audio")` present
in the dict, per the loop of source lines 47-49. -/
def firstMediaVal (es : List (String × BatchInput)) : Option BatchInput :=
  match plookup "image" es with
  | some v => some v
  | none =>
    match plookup "video" es with
    | some v => some v
    | none => plookup "audio" es

theorem plookup_sizeOf {es : List (String × BatchInput)} {k : String}
    {v : BatchInput} (h : plookup k es = some v) : sizeOf v < sizeOf es := by
  induction es with
  | nil => simp [plookup] at h
  | cons p rest ih =>
    obtain ⟨a, b⟩ := p
    by_cases ha : a = k
    · simp [plookup, ha] at h
      subst h
      simp
      omega
    · simp [plookup, ha] at h
      have := ih h
      simp
      omega

theorem firstMediaVal_sizeOf {es : List (String × BatchInput)} {v : BatchInput}
    (h : firstMediaVal es = some v) : sizeOf v < sizeOf es := by
  unfold firstMediaVal at h
  repeat' split at h
  all_goals first
    | exact plookup_sizeOf h
    | (cases h; rename_i heq _; exact plookup_sizeOf heq)
    | (cases h; rename_i heq; exact plookup_sizeOf heq)

/-- The function `get_batch_size(x)` (source lines 43-54). A tensor contributes the size
of its first dimension (`x.shape[0]` raises `IndexError` on an empty shape);
a dict dispatches on the first of the keys `image`, `video`, `audio`; a list
contributes its length; anything else raises `NotImplementedError`, as does
a dict with none of the three keys. -/
def get_batch_size : BatchInput → Except PyErr ℕ
  | .tensor [] => .error .indexError
  | .tensor (n :: _) => .ok n
  | .dict es =>
    (match _h : firstMediaVal es with
     | some v => get_batch_size v
     | none =>
       .error (.notImplemented
         ("Invalid dict keys " ++ String.intercalate ", " (es.map Prod.fst))))
  | .list es => .ok es.length
  | .other tyName => .error (.notImplemented ("Invalid type " ++ tyName))
termination_by x => sizeOf x
decreasing_by
  have := firstMediaVal_sizeOf _h
  simp
  omega

/-- Holds when `get_batch_size` raised `NotImplementedError` (and not some other
exception, and did not return). -/
def isNotImplErr : Except PyErr ℕ → Bool
  | .error (.notImplemented _) => true
  | _ => false

/-- The inputs on which `get_batch_size` raises `NotImplementedError`,
characterised recursively: a value of unsupported type, a dict with none of
the media keys, or a dict whose first present media key holds such a value. -/
def raisesNotImpl : BatchInput → Bool
  | .tensor _ => false
  | .dict es =>
    (match _h : firstMediaVal es with
     | some v => raisesNotImpl v
     | none => true)
  | .list _ => false
  | .other _ => true
termination_by x => sizeOf x
decreasing_by
  have := firstMediaVal_sizeOf _h
  simp
  omega

/-! ## `autocast_fn` -/

/-- The torch dtypes that can be asked for in mixed-precision training. -/
inductive TorchDtype where
  | float16
  | bfloat16
deriving DecidableEq, Repr

/-- The module-level table
`str_to_torch_dtype = {"float16": torch.float16, "bfloat16": torch.bfloat16}`
(source line 20). -/
def str_to_torch_dtype : List (String × TorchDtype) :=
  [("float16", TorchDtype.float16), ("bfloat16", TorchDtype.bfloat16)]

/-- The subscript `str_to_torch_dtype[s]` as a lookup. -/
def lookupDtype (s : String) : Option TorchDtype :=
  plookup s str_to_torch_dtype

/-- A `torch.cuda.amp.autocast` context, described by the arguments it was
constructed with. -/
structure AutocastCtx where
  enabled : Bool
  dtype : Option TorchDtype
deriving DecidableEq, Repr

/-- The function `autocast_fn(enabled, amp_precision)` (source lines 23-40), with the
availability of a CUDA device passed as an explicit input.

Modelled from the spec: `corenet.utils.logger.error` (not under `src/`)
signals a validation error and does not return to the caller — per the
spec's "a few validation errors for unsupported precision modes"; it is
modelled as `Except.error (.validationError _)`. -/
def autocast_fn (enabled : Bool) (amp_precision : Option String)
    (cuda_available : Bool) : Except PyErr AutocastCtx :=
  if enabled then
    match amp_precision.bind lookupDtype with
    | none =>
      .error (.validationError
        "For Mixed-precision training, supported dtypes are [float16, bfloat16]")
    | some dt =>
      if !cuda_available then
        .error (.validationError
          "For mixed-precision training, CUDA device is required.")
      else
        .ok { enabled := true, dtype := some dt }
  else
    .ok { enabled := false, dtype := none }

/-! ## `get_log_writers` -/

/-- The logging-related options read from `opts` via `getattr` (source lines
137, 154, 166, 186). -/
structure LogOpts where
  tensorboard_logging : Bool
  bolt_logging : Bool
  hub_logging : Bool
  file_logging : Bool
deriving DecidableEq, Repr

/-- Modelled from the spec: the parts of the environment that decide the
best-effort fallbacks that disable a logging backend when it is unavailable:
whether the calling process is the master node (`is_master`, from
`corenet.utils.ddp_utils`, not under `src/`), whether each optional
backend's module can be loaded, and whether the hub logger's constructor
raises. -/
structure LogEnv where
  is_master_node : Bool
  summary_writer_available : Bool
  bolt_available : Bool
  hub_available : Bool
  hub_init_raises : Bool
deriving DecidableEq, Repr

/-- A log-writer backend, described by the data it was constructed with. -/
inductive LogWriter where
  | summaryWriter (log_dir : String)
  | boltLogger
  | hubLogger
  | fileLogger (path : String)
deriving DecidableEq, Repr

/-- What a call of `get_log_writers` produced and did: the returned list of
writers, the backend imports it attempted, and the directories it created. -/
structure LogWritersResult where
  writers : List LogWriter
  imports_attempted : List String
  dirs_created : List String
deriving DecidableEq, Repr

/-- The function `get_log_writers(opts, save_location)` (source lines 130-190). Import
failures and a failing hub-logger constructor are caught in the source
(`try`/`except`), so the function always returns a list; the environment
flags stand for those runtime outcomes. -/
def get_log_writers (opts : LogOpts) (env : LogEnv)
    (save_location : Option String) : LogWritersResult :=
  if !env.is_master_node then
    { writers := [], imports_attempted := [], dirs_created := [] }
  else
    let tbPart : LogWritersResult :=
      match save_location with
      | some sl =>
        if opts.tensorboard_logging then
          if env.summary_writer_available then
            { writers := [.summaryWriter (sl ++ "/tb_logs")],
              imports_attempted := ["SummaryWriter"],
              dirs_created := [sl ++ "/tb_logs"] }
          else
            { writers := [], imports_attempted := ["SummaryWriter"],
              dirs_created := [] }
        else
          { writers := [], imports_attempted := [], dirs_created := [] }
      | none => { writers := [], imports_attempted := [], dirs_created := [] }
    let boltPart : LogWritersResult :=
      if opts.bolt_logging then
        if env.bolt_available then
          { writers := [.boltLogger], imports_attempted := ["BoltLogger"],
            dirs_created := [] }
        else
          { writers := [], imports_attempted := ["BoltLogger"], dirs_created := [] }
      else
        { writers := [], imports_attempted := [], dirs_created := [] }
    let hubPart : LogWritersResult :=
      if opts.hub_logging then
        if env.hub_available then
          if env.hub_init_raises then
            { writers := [], imports_attempted := ["HubLogger"], dirs_created := [] }
          else
            { writers := [.hubLogger], imports_attempted := ["HubLogger"],
              dirs_created := [] }
        else
          { writers := [], imports_attempted := ["HubLogger"], dirs_created := [] }
      else
        { writers := [], imports_attempted := [], dirs_created := [] }
    let filePart : LogWritersResult :=
      match save_location with
      | some sl =>
        if opts.file_logging then
          { writers := [.fileLogger (sl ++ "/stats.pt")], imports_attempted := [],
            dirs_created := [] }
        else
          { writers := [], imports_attempted := [], dirs_created := [] }
      | none => { writers := [], imports_attempted := [], dirs_created := [] }
    { writers := tbPart.writers ++ boltPart.writers ++ hubPart.writers
        ++ filePart.writers,
      imports_attempted := tbPart.imports_attempted ++ boltPart.imports_attempted
        ++ hubPart.imports_attempted ++ filePart.imports_attempted,
      dirs_created := tbPart.dirs_created ++ boltPart.dirs_created
        ++ hubPart.dirs_created ++ filePart.dirs_created }

/-- Key joining relative to a parent prefix, as performed by the source's
`new_key` construction when unrolled along a whole path. -/
def joinFrom (parent separator : String) (p : List String) : String :=
  if parent = "" then joinPath separator p
  else parent ++ separator ++ joinPath separator p

/-! ## A heap model for the frame claim

To state that the helpers do not mutate their argument containers, the
functions that touch containers are embedded a second time against an
explicit object store: containers live at addresses, reads and writes are
store operations, and `list.append`/`list.extend`/`dict(...)` act on
explicitly allocated objects. Recursion through the heap is fuel-bounded
(a cyclic dictionary would not terminate in Python either). -/

/-- A heap address. -/
abbrev Addr := ℕ

/-- An immediate Python value: a number, a string, `None`, or a reference to
a heap object. -/
inductive HVal where
  | num (q : ℚ)
  | str (s : String)
  | hnone
  | ref (a : Addr)
deriving DecidableEq, Repr

/-- A heap object: a tensor (only its shape matters), a list, a dict, or
the list-of-pairs object `items` built inside `flatten`. -/
inductive Obj where
  | tensorObj (shape : List ℕ)
  | listObj (elems : List HVal)
  | dictObj (entries : List (String × HVal))
  | pairsObj (pairs : List (String × HVal))
deriving DecidableEq, Repr

/-- The object store: the object at address `a` is `mem[a]`; fresh objects
are appended. -/
structure Store where
  mem : List Obj
deriving DecidableEq, Repr

/-- Read the object at an address. -/
def Store.read (st : Store) (a : Addr) : Option Obj := st.mem[a]?

/-- Overwrite the object at an address (in-place mutation). -/
def Store.write (st : Store) (a : Addr) (o : Obj) : Store := ⟨st.mem.set a o⟩

/-- Allocate a fresh object, returning the new store and its address. -/
def Store.alloc (st : Store) (o : Obj) : Store × Addr :=
  (⟨st.mem ++ [o]⟩, st.mem.length)

/-- Python `isinstance(value, MutableMapping)`: holds exactly of references to dict
objects; returns the dict's address. -/
def isDictRef (st : Store) : HVal → Option Addr
  | .ref b =>
    match st.read b with
    | some (.dictObj _) => some b
    | _ => none
  | _ => none

/-- Python `items.append(..)` / `items.extend(..)`: in-place extension of the
pairs object at `itemsA`. -/
def appendItems (st : Store) (itemsA : Addr) (xs : List (String × HVal)) :
    Option Store :=
  match st.read itemsA with
  | some (.pairsObj cur) => some (st.write itemsA (.pairsObj (cur ++ xs)))
  | _ => none

mutual

/-- The function `flatten(dictionary, parent_key, separator)` as a heap computation
(source lines 78-100): read the dict, allocate the fresh `items` list, run
the loop, then allocate `dict(items)` and return its address. -/
def flattenS : ℕ → Store → Addr → String → String → Option (Store × Addr)
  | 0, _, _, _, _ => none
  | fuel + 1, st, a, parent_key, separator =>
    match st.read a with
    | some (.dictObj entries) =>
      match st.alloc (.pairsObj []) with
      | (st1, itemsA) =>
        match flattenLoop fuel st1 itemsA entries parent_key separator with
        | none => none
        | some st2 =>
          match st2.read itemsA with
          | some (.pairsObj items) =>
            match st2.alloc (.dictObj (dictOfList items)) with
            | (st3, resA) => some (st3, resA)
          | _ => none
    | _ => none
termination_by fuel _ _ _ _ => (fuel, 0)

/-- The `for key, value in dictionary.items()` loop of `flatten` (source
lines 94-99): a mapping value is recursively flattened and the result's
items extend `items`; any other value is appended as a leaf. -/
def flattenLoop :
    ℕ → Store → Addr → List (String × HVal) → String → String → Option Store
  | _, st, _, [], _, _ => some st
  | fuel, st, itemsA, (key, value) :: rest, parent_key, separator =>
    match isDictRef st value with
    | some b =>
      match flattenS fuel st b
          (if parent_key = "" then key else parent_key ++ separator ++ key)
          separator with
      | none => none
      | some (st1, innerA) =>
        match st1.read innerA with
        | some (.dictObj innerItems) =>
          match appendItems st1 itemsA innerItems with
          | none => none
          | some st2 => flattenLoop fuel st2 itemsA rest parent_key separator
        | _ => none
    | none =>
      match appendItems st itemsA
          [((if parent_key = "" then key else parent_key ++ separator ++ key),
            value)] with
      | none => none
      | some st2 => flattenLoop fuel st2 itemsA rest parent_key separator
termination_by fuel _ _ es _ _ => (fuel, es.length + 1)

end

/-- The first of the keys `image`, `video`, `audio` present in a heap
dict. -/
def firstMediaValH (es : List (String × HVal)) : Option HVal :=
  match plookup "image" es with
  | some v => some v
  | none =>
    match plookup "video" es with
    | some v => some v
    | none => plookup "audio" es

/-- The function `get_batch_size(x)` as a heap computation (source lines 43-54): it only
reads the store. -/
def get_batch_sizeS : ℕ → Store → HVal → Option (Store × Except PyErr ℕ)
  | 0, _, _ => none
  | fuel + 1, st, x =>
    match x with
    | .ref a =>
      match st.read a with
      | some (.tensorObj []) => some (st, .error .indexError)
      | some (.tensorObj (n :: _)) => some (st, .ok n)
      | some (.dictObj es) =>
        match firstMediaValH es with
        | some v => get_batch_sizeS fuel st v
        | none => some (st, .error (.notImplemented "Invalid dict keys"))
      | some (.listObj l) => some (st, .ok l.length)
      | _ => some (st, .error (.notImplemented "Invalid type"))
    | _ => some (st, .error (.notImplemented "Invalid type"))

/-- Python `isinstance(v, Number)` for a heap value. -/
def isNumberH : HVal → Bool
  | .num _ => true
  | _ => false

/-- Python truthiness for a heap value (container truthiness reads the
store; a dangling reference is treated as falsy, it cannot occur in a
well-formed store). -/
def truthyH (st : Store) : HVal → Bool
  | .num q => q != 0
  | .str s => s != ""
  | .hnone => false
  | .ref a =>
    match st.read a with
    | some (.listObj l) => !l.isEmpty
    | some (.dictObj d) => !d.isEmpty
    | some (.pairsObj p) => !p.isEmpty
    | some (.tensorObj _) => true
    | none => false

/-- The statement `if not isinstance(lrs, list): lrs = [lrs]` on the heap: an existing
list is read, anything else is wrapped in a freshly allocated singleton
list that the local name is rebound to. -/
def normLrsS (st : Store) (lrs : HVal) : Store × List HVal :=
  match lrs with
  | .ref a =>
    match st.read a with
    | some (.listObj l) => (st, l)
    | _ => ((st.alloc (.listObj [lrs])).1, [lrs])
  | _ => ((st.alloc (.listObj [lrs])).1, [lrs])

/-- Python `round(lr_val, 6)` over the learning-rate elements; a non-number raises
`TypeError` (modelled as `none`). -/
def roundLrs : List HVal → Option (List ℚ)
  | [] => some []
  | .num q :: rest => (roundLrs rest).map (fun l => pyRound q 6 :: l)
  | _ :: _ => none

/-- The function `step_log_metrics` as a heap computation (source lines 103-127),
returning the store and the `add_scalar` calls. `normLrsS st lrs` is the
store and element list after the scalar-normalisation statement (it is pure,
so the repeated projections denote the single evaluation). -/
def step_log_metricsS (fuel : ℕ) (st : Store) (lrs : HVal) (step : ℤ)
    (metrics : HVal) : Option (Store × List (String × HVal × ℤ)) :=
  match roundLrs (normLrsS st lrs).2 with
  | none => none
  | some rounded =>
    match metrics with
    | .hnone =>
      some ((normLrsS st lrs).1, rounded.enum.map
        (fun p => ("LR/Group-" ++ toString p.1, HVal.num p.2, step)))
    | .ref m =>
      match flattenS fuel (normLrsS st lrs).1 m "" "/" with
      | none => none
      | some (st2, flatA) =>
        match st2.read flatA with
        | some (.dictObj fm) =>
          some (st2, rounded.enum.map
            (fun p => ("LR/Group-" ++ toString p.1, HVal.num p.2, step))
            ++ fm.filterMap (fun kv =>
              if isNumberH kv.2 || truthyH st2 kv.2
              then some (kv.1, kv.2, step) else none))
        | _ => none
    | _ => none

/-- The function `log_metrics` as a heap computation (source lines 57-75), returning the
store and the `add_scalar` calls. -/
def log_metricsS (st : Store) (lrs : HVal) (train_loss : ℚ) (val_loss : ℚ)
    (epoch : ℤ) (best_metric : ℚ) (val_ema_loss : Option ℚ)
    (ckpt_metric_name : Option String) (train_ckpt_metric : Option ℚ)
    (val_ckpt_metric : Option ℚ) (val_ema_ckpt_metric : Option ℚ) :
    Option (Store × List (String × HVal × ℤ)) :=
  match roundLrs (normLrsS st lrs).2 with
  | none => none
  | some rounded =>
    some ((normLrsS st lrs).1, rounded.enum.map
      (fun p => ("LR/Group-" ++ toString p.1, HVal.num p.2, epoch))
      ++ [("Common/Best Metric", HVal.num (pyRound best_metric 2), epoch)])

/-! ## Supporting lemmas -/

theorem foldl_insertPair_nodup {α : Type} (l : List (String × α)) :
    ∀ acc : List (String × α),
      (((acc ++ l).map Prod.fst).Nodup) → l.foldl insertPair acc = acc ++ l := by
  induction l with
  | nil => intro acc _; simp
  | cons kv t ih =>
    intro acc hnd
    obtain ⟨k, v⟩ := kv
    have hk : ¬ acc.any (fun p => p.1 == k) := by
      simp only [List.map_append, List.nodup_append] at hnd
      intro hany
      obtain ⟨p, hp, hpk⟩ := List.any_eq_true.mp hany
      have hkmem : k ∈ acc.map Prod.fst := by
        rw [← beq_iff_eq.mp hpk]
        exact List.mem_map_of_mem _ hp
      exact hnd.2.2 hkmem (by simp)
    have step : insertPair acc (k, v) = acc ++ [(k, v)] := by
      unfold insertPair
      rw [if_neg hk]
    rw [List.foldl_cons, step, ih (acc ++ [(k, v)]) (by simpa using hnd)]
    simp

theorem dictOfList_nodup_id {α : Type} {l : List (String × α)}
    (h : (l.map Prod.fst).Nodup) : dictOfList l = l := by
  unfold dictOfList
  simpa using foldl_insertPair_nodup l [] (by simpa using h)

theorem joinPath_cons (separator k : String) {p : List String} (hp : p ≠ []) :
    joinPath separator (k :: p) = k ++ separator ++ joinPath separator p := by
  cases p with
  | nil => exact absurd rfl hp
  | cons a t => rfl

theorem string_append_ne_empty_left {s : String} (t : String) (h : s ≠ "") :
    s ++ t ≠ "" := by
  intro he
  apply h
  have : (s ++ t).length = 0 := by rw [he]; rfl
  rw [String.length_append] at this
  have hs : s.length = 0 := by omega
  exact String.ext (List.length_eq_zero.mp hs)

theorem leafPaths_ne_nil :
    ∀ (d : List (String × MVal)) pv, pv ∈ leafPaths d → pv.1 ≠ [] := by
  intro d
  induction d using leafPaths.induct with
  | case1 => intro pv h; simp [leafPaths] at h
  | case2 key value rest ihv ihr =>
    intro pv h
    rw [leafPaths.eq_def] at h
    rcases List.mem_append.mp h with h | h
    · cases value with
      | vdict d2 =>
        obtain ⟨qv, _, rfl⟩ := List.mem_map.mp h
        simp
      | num q => rw [List.mem_singleton] at h; subst h; simp
      | str s => rw [List.mem_singleton] at h; subst h; simp
      | vnone => rw [List.mem_singleton] at h; subst h; simp
      | vlist elems => rw [List.mem_singleton] at h; subst h; simp
    · exact ihr pv h

theorem flattenRaw_eq_join :
    ∀ (d : List (String × MVal)) (parent separator : String),
      keysNonempty d = true →
      flattenRaw d parent separator
        = (leafPaths d).map (fun pv => (joinFrom parent separator pv.1, pv.2)) := by
  intro d parent separator
  induction d, parent, separator using flattenRaw.induct with
  | case1 parent separator => intro _; simp [flattenRaw, leafPaths]
  | case2 key value rest parent separator ihv ihr =>
    intro hk
    cases value with
    | vdict d2 =>
      rw [keysNonempty] at hk
      simp only [Bool.and_eq_true, bne_iff_ne, ne_eq] at hk
      obtain ⟨⟨hkey, hval⟩, hrest⟩ := hk
      have ih2 := ihv hval
      rw [dite_eq_ite] at ih2
      simp only [flattenRaw, leafPaths, List.map_append, List.map_map]
      rw [ih2, ihr hrest]
      congr 1
      apply List.map_congr_left
      intro pv hpv
      have hne : pv.1 ≠ [] := leafPaths_ne_nil d2 pv hpv
      simp only [Function.comp]
      by_cases hp : parent = ""
      · subst hp
        simp only [joinFrom]
        rw [joinPath_cons separator key hne]
        simp [hkey]
      · have hnk : parent ++ separator ++ key ≠ "" :=
          string_append_ne_empty_left key (string_append_ne_empty_left separator hp)
        simp only [joinFrom, if_neg hp, if_neg hnk]
        rw [joinPath_cons separator key hne]
        simp [String.append_assoc]
    | num q =>
      rw [keysNonempty] at hk
      simp only [Bool.and_eq_true, bne_iff_ne, ne_eq] at hk
      obtain ⟨⟨hkey, hval⟩, hrest⟩ := hk
      simp only [flattenRaw, leafPaths, List.map_append, List.map_cons, List.map_nil]
      rw [ihr hrest]
      congr 1
      simp [joinFrom, joinPath]
    | str s =>
      rw [keysNonempty] at hk
      simp only [Bool.and_eq_true, bne_iff_ne, ne_eq] at hk
      obtain ⟨⟨hkey, hval⟩, hrest⟩ := hk
      simp only [flattenRaw, leafPaths, List.map_append, List.map_cons, List.map_nil]
      rw [ihr hrest]
      congr 1
      simp [joinFrom, joinPath]
    | vnone =>
      rw [keysNonempty] at hk
      simp only [Bool.and_eq_true, bne_iff_ne, ne_eq] at hk
      obtain ⟨⟨hkey, hval⟩, hrest⟩ := hk
      simp only [flattenRaw, leafPaths, List.map_append, List.map_cons, List.map_nil]
      rw [ihr hrest]
      congr 1
      simp [joinFrom, joinPath]
    | vlist elems =>
      rw [keysNonempty] at hk
      simp only [Bool.and_eq_true, bne_iff_ne, ne_eq] at hk
      obtain ⟨⟨hkey, hval⟩, hrest⟩ := hk
      simp only [flattenRaw, leafPaths, List.map_append, List.map_cons, List.map_nil]
      rw [ihr hrest]
      congr 1
      simp [joinFrom, joinPath]

theorem flattenItems_eq_raw :
    ∀ (d : List (String × MVal)) (parent separator : String),
      ((flattenRaw d parent separator).map Prod.fst).Nodup →
      flattenItems d parent separator = flattenRaw d parent separator := by
  intro d parent separator
  induction d, parent, separator using flattenItems.induct with
  | case1 parent separator => intro _; simp [flattenItems, flattenRaw]
  | case2 key value rest parent separator ihv ihr =>
    intro hnd
    cases value with
    | vdict d2 =>
      rw [flattenRaw.eq_def] at hnd
      simp only [List.map_append, List.nodup_append] at hnd
      obtain ⟨hl, hr, _⟩ := hnd
      have ih2 := ihv hl
      rw [dite_eq_ite] at ih2
      simp only [flattenItems, flattenRaw]
      rw [ih2, ihr hr, dictOfList_nodup_id hl]
    | num q =>
      rw [flattenRaw.eq_def] at hnd
      simp only [List.map_append, List.nodup_append] at hnd
      obtain ⟨hl, hr, _⟩ := hnd
      simp only [flattenItems, flattenRaw]
      rw [ihr hr]
    | str s =>
      rw [flattenRaw.eq_def] at hnd
      simp only [List.map_append, List.nodup_append] at hnd
      obtain ⟨hl, hr, _⟩ := hnd
      simp only [flattenItems, flattenRaw]
      rw [ihr hr]
    | vnone =>
      rw [flattenRaw.eq_def] at hnd
      simp only [List.map_append, List.nodup_append] at hnd
      obtain ⟨hl, hr, _⟩ := hnd
      simp only [flattenItems, flattenRaw]
      rw [ihr hr]
    | vlist elems =>
      rw [flattenRaw.eq_def] at hnd
      simp only [List.map_append, List.nodup_append] at hnd
      obtain ⟨hl, hr, _⟩ := hnd
      simp only [flattenItems, flattenRaw]
      rw [ihr hr]

theorem gbs_dict_eq {es : List (String × BatchInput)} {v : BatchInput}
    (h : firstMediaVal es = some v) :
    get_batch_size (.dict es) = get_batch_size v := by
  rw [get_batch_size]
  split
  · rename_i v' heq
    rw [h] at heq
    cases heq
    rfl
  · rename_i heq
    rw [h] at heq
    cases heq

theorem lrGroupCalls_mem (l : List ℚ) (step : ℤ) (i : ℕ) (h : i < l.length) :
    ("LR/Group-" ++ toString i, MVal.num (pyRound (l.get ⟨i, h⟩) 6), step)
      ∈ lrGroupCalls l step := by
  unfold lrGroupCalls
  apply List.mem_map.mpr
  refine ⟨(i, l.get ⟨i, h⟩), ?_, rfl⟩
  rw [List.mem_enum_iff_getElem?]
  simp [List.getElem?_eq_getElem h]

theorem lrGroupCalls_shape {c : ScalarCall} {l : List ℚ} {step : ℤ}
    (h : c ∈ lrGroupCalls l step) :
    c.2.2 = step ∧ ∃ i : ℕ, c.1 = "LR/Group-" ++ toString i := by
  unfold lrGroupCalls at h
  obtain ⟨p, _, rfl⟩ := List.mem_map.mp h
  exact ⟨rfl, p.1, rfl⟩

theorem metricCalls_mem_iff {k : String} {v : MVal} {s : ℤ}
    {m : List (String × MVal)} :
    (k, v, s) ∈ metricCalls s m ↔
      ((k, v) ∈ flatten m "" "/" ∧ (isNumber v || truthy v) = true) := by
  unfold metricCalls
  rw [List.mem_filterMap]
  constructor
  · rintro ⟨⟨k', v'⟩, hm, heq⟩
    by_cases hc : (isNumber v' || truthy v') = true
    · rw [if_pos hc] at heq
      cases heq
      exact ⟨hm, hc⟩
    · rw [if_neg hc] at heq
      cases heq
  · rintro ⟨hm, hc⟩
    exact ⟨(k, v), hm, by rw [if_pos hc]⟩

theorem metricCalls_step {c : ScalarCall} {s : ℤ} {m : List (String × MVal)}
    (h : c ∈ metricCalls s m) : c.2.2 = s := by
  unfold metricCalls at h
  obtain ⟨⟨k', v'⟩, hm, heq⟩ := List.mem_filterMap.mp h
  by_cases hc : (isNumber v' || truthy v') = true
  · rw [if_pos hc] at heq
    cases heq
    rfl
  · rw [if_neg hc] at heq
    cases heq

/-! ## The claims -/

/-- C1: `get_batch_size` infers the batch size from heterogeneous input
containers: a Tensor yields the size of its first dimension, a dict yields
`get_batch_size` of the value of the first key present among
`image`, `video`, `audio` (in that order), and a list yields its length. -/
theorem get_batch_size_infers_batch_size :
    (∀ (n : ℕ) (rest : List ℕ), get_batch_size (.tensor (n :: rest)) = .ok n)
    ∧ (∀ es v, plookup "image" es = some v →
        get_batch_size (.dict es) = get_batch_size v)
    ∧ (∀ es v, plookup "image" es = none → plookup "video" es = some v →
        get_batch_size (.dict es) = get_batch_size v)
    ∧ (∀ es v, plookup "image" es = none → plookup "video" es = none →
        plookup "audio" es = some v →
        get_batch_size (.dict es) = get_batch_size v)
    ∧ (∀ es : List BatchInput, get_batch_size (.list es) = .ok es.length) := by
  refine ⟨fun n rest => by simp [get_batch_size],
    ?_, ?_, ?_, fun es => by simp [get_batch_size]⟩
  · intro es v h
    exact gbs_dict_eq (by simp [firstMediaVal, h])
  · intro es v h1 h2
    exact gbs_dict_eq (by simp [firstMediaVal, h1, h2])
  · intro es v h1 h2 h3
    exact gbs_dict_eq (by simp [firstMediaVal, h1, h2, h3])

/-- Witness for C1 at a concrete dict whose first present media key is
`image`, holding a tensor of shape `[4, 3]`. -/
theorem get_batch_size_infers_batch_size_witness :
    get_batch_size (.dict [("video", BatchInput.list [BatchInput.other "s"]),
      ("image", BatchInput.tensor [4, 3])]) = .ok 4 := by
  have h := get_batch_size_infers_batch_size.2.1
    [("video", BatchInput.list [BatchInput.other "s"]),
      ("image", BatchInput.tensor [4, 3])]
    (BatchInput.tensor [4, 3]) (by simp [plookup])
  rw [h]
  exact get_batch_size_infers_batch_size.1 4 [3]

/-- C2 counterexample: the claim says a dict containing the key `image`
never raises the `NotImplementedError` validation error, but on
`{"image": None}` (a value of unsupported type under the key) the recursive
call raises it. -/
theorem get_batch_size_error_claim_cex :
    plookup "image" [("image", BatchInput.other "NoneType")]
      = some (BatchInput.other "NoneType")
    ∧ isNotImplErr
        (get_batch_size (.dict [("image", BatchInput.other "NoneType")])) = true := by
  constructor
  · simp [plookup]
  · rw [gbs_dict_eq (v := BatchInput.other "NoneType")
      (by simp [firstMediaVal, plookup])]
    simp [get_batch_size, isNotImplErr]

/-- C2 amended: `get_batch_size` raises `NotImplementedError` exactly on the
inputs characterised recursively by `raisesNotImpl`: values that are neither
Tensor nor dict nor list, dicts with none of the keys `image`, `video`,
`audio`, and dicts whose first present such key holds a value on which the
recursion raises `NotImplementedError`. -/
theorem get_batch_size_notimpl_iff :
    ∀ x, isNotImplErr (get_batch_size x) = raisesNotImpl x := by
  intro x
  induction x using get_batch_size.induct with
  | case1 => simp [get_batch_size, raisesNotImpl, isNotImplErr]
  | case2 n tail => simp [get_batch_size, raisesNotImpl, isNotImplErr]
  | case3 es v hm ih =>
    rw [get_batch_size, raisesNotImpl]
    split
    · rename_i v' heq
      rw [hm] at heq
      cases heq
      exact ih
    · rename_i heq
      rw [hm] at heq
      cases heq
  | case4 es hm =>
    rw [get_batch_size, raisesNotImpl]
    split
    · rename_i v' heq
      rw [hm] at heq
      cases heq
    · simp [isNotImplErr]
  | case5 es => simp [get_batch_size, raisesNotImpl, isNotImplErr]
  | case6 ty => simp [get_batch_size, raisesNotImpl, isNotImplErr]

/-- C3: with `enabled=True`, `autocast_fn` returns an enabled autocast
context carrying the dtype `str_to_torch_dtype` maps the precision string to
when that lookup succeeds and CUDA is available, and signals a validation
error for every other `amp_precision` (including `None`). -/
theorem autocast_fn_precision_validation :
    (∀ (s : String) (dt : TorchDtype), lookupDtype s = some dt →
      autocast_fn true (some s) true = .ok { enabled := true, dtype := some dt })
    ∧ (∀ (amp : Option String) (cuda : Bool),
        amp ≠ some "float16" → amp ≠ some "bfloat16" →
        ∃ msg, autocast_fn true amp cuda = .error (.validationError msg)) := by
  constructor
  · intro s dt h
    simp [autocast_fn, Option.bind, h]
  · intro amp cuda h1 h2
    cases amp with
    | none => exact ⟨_, rfl⟩
    | some s =>
      simp only [ne_eq, Option.some_inj] at h1 h2
      have hl : lookupDtype s = none := by
        simp [lookupDtype, plookup, str_to_torch_dtype, Ne.symm h1, Ne.symm h2]
      refine ⟨"For Mixed-precision training, supported dtypes are [float16, bfloat16]",
        ?_⟩
      simp [autocast_fn, Option.some_bind, hl]

/-- Witness for C3: `float16` with CUDA gives an enabled context with the
looked-up dtype; `None` precision signals a validation error. -/
theorem autocast_fn_precision_validation_witness :
    autocast_fn true (some "float16") true
      = .ok { enabled := true, dtype := some TorchDtype.float16 }
    ∧ ∃ msg, autocast_fn true none false = .error (.validationError msg) :=
  ⟨autocast_fn_precision_validation.1 "float16" TorchDtype.float16 rfl,
   autocast_fn_precision_validation.2 none false (by simp) (by simp)⟩

/-- C4 counterexample: as universally stated the claim fails. First input:
two leaf paths join to the same key `a/b`, so the leaf `1` of path
`["a/b"]` is not bound in the result (the later entry overwrote it). Second
input: an empty top-level key is dropped by the truthiness test on
`parent_key`, so the path `["", "b"]` is bound under `b`, not under the
joined key `/b`. -/
theorem flatten_claim_cex :
    ((["a/b"], MVal.num 1)
        ∈ leafPaths [("a/b", MVal.num 1), ("a", MVal.vdict [("b", MVal.num 2)])]
      ∧ joinPath "/" ["a/b"] = "a/b"
      ∧ ("a/b", MVal.num 1)
          ∉ flatten [("a/b", MVal.num 1), ("a", MVal.vdict [("b", MVal.num 2)])] "" "/")
    ∧ (leafPaths [("", MVal.vdict [("b", MVal.num 1)])] = [(["", "b"], MVal.num 1)]
      ∧ joinPath "/" ["", "b"] = "/b"
      ∧ flatten [("", MVal.vdict [("b", MVal.num 1)])] "" "/"
          = [("b", MVal.num 1)]) := by
  refine ⟨⟨by simp [leafPaths], rfl, ?_⟩,
    by simp [leafPaths], rfl, by simp [flatten, flattenItems, dictOfList, insertPair]⟩
  have h : flatten [("a/b", MVal.num 1), ("a", MVal.vdict [("b", MVal.num 2)])] "" "/"
      = [("a/b", MVal.num 2)] := by
    simp [flatten, flattenItems, dictOfList, insertPair]
  rw [h]
  intro hmem
  rw [List.mem_singleton] at hmem
  have h12 : (1 : ℚ) = 2 := by
    injection hmem with h1 h2
    injection h2
  norm_num at h12

/-- C4 amended: for every finitely nested dictionary with nonempty string
keys whose joined leaf-path keys are pairwise distinct, `flatten` returns
exactly the dictionary with one entry per maximal leaf path, keyed by the
path's keys joined with the separator. -/
theorem flatten_eq_specFlatten (d : List (String × MVal)) (separator : String)
    (h1 : keysNonempty d = true)
    (h2 : ((specFlatten d separator).map Prod.fst).Nodup) :
    flatten d "" separator = specFlatten d separator := by
  have hjoin : flattenRaw d "" separator = specFlatten d separator := by
    rw [flattenRaw_eq_join d "" separator h1]
    unfold specFlatten
    apply List.map_congr_left
    intro pv _
    simp [joinFrom]
  have h2' : ((flattenRaw d "" separator).map Prod.fst).Nodup := by
    rw [hjoin]
    exact h2
  unfold flatten
  rw [flattenItems_eq_raw d "" separator h2', dictOfList_nodup_id h2', hjoin]

/-- Witness for C4 (amended) on a two-entry dictionary with one nested
level. -/
theorem flatten_eq_specFlatten_witness :
    flatten [("a", MVal.vdict [("b", MVal.num 1)]), ("c", MVal.num 2)] "" "/"
      = specFlatten [("a", MVal.vdict [("b", MVal.num 1)]), ("c", MVal.num 2)] "/" :=
  flatten_eq_specFlatten _ _ (by simp [keysNonempty])
    (by simp [specFlatten, leafPaths, joinPath])

/-- C5: `step_log_metrics` dispatches through `add_scalar` only: a scalar
`lrs` is treated as a one-element list, learning rate `i` is dispatched as
`LR/Group-i` rounded to 6 decimal places, every numeric value of the
flattened metrics dictionary is dispatched under its flattened key, and
every call is tagged with the given step. -/
theorem step_log_metrics_dispatch :
    (∀ (q : ℚ) (step : ℤ) m,
      step_log_metrics (.scalar q) step m = step_log_metrics (.list [q]) step m)
    ∧ (∀ (l : List ℚ) (step : ℤ) m (i : ℕ) (h : i < l.length),
        ("LR/Group-" ++ toString i, MVal.num (pyRound (l.get ⟨i, h⟩) 6), step)
          ∈ step_log_metrics (.list l) step m)
    ∧ (∀ (l : List ℚ) (step : ℤ) m (k : String) (v : MVal),
        (k, v) ∈ flatten m "" "/" → isNumber v = true →
        (k, v, step) ∈ step_log_metrics (.list l) step (some m))
    ∧ (∀ lrs (step : ℤ) m c, c ∈ step_log_metrics lrs step m → c.2.2 = step) := by
  refine ⟨fun q step m => rfl, ?_, ?_, ?_⟩
  · intro l step m i h
    exact List.mem_append_left _ (lrGroupCalls_mem l step i h)
  · intro l step m k v hm hnum
    apply List.mem_append_right
    exact metricCalls_mem_iff.mpr ⟨hm, by simp [hnum]⟩
  · intro lrs step m c hc
    unfold step_log_metrics at hc
    rcases List.mem_append.mp hc with h | h
    · exact (lrGroupCalls_shape h).1
    · cases m with
      | none => simp at h
      | some mm => exact metricCalls_step h

/-- Witness for C5: a numeric metric of a one-entry dictionary is dispatched
under its flattened key with the given step. -/
theorem step_log_metrics_dispatch_witness :
    ("a", MVal.num 3, (7 : ℤ))
      ∈ step_log_metrics (.list [0]) 7 (some [("a", MVal.num 3)]) := by
  apply step_log_metrics_dispatch.2.2.1 [0] 7 [("a", MVal.num 3)] "a" (MVal.num 3)
  · simp [flatten, flattenItems, dictOfList, insertPair]
  · rfl

/-- C6: on the master node, each configured backend appears in the returned
list exactly when it is available (and, for the hub logger, its constructor
does not raise); an unavailable backend is skipped while all other
configured backends are still attempted and included, and the function
always returns. -/
theorem get_log_writers_optional_backends :
    ∀ (opts : LogOpts) (env : LogEnv) (sl : Option String),
      env.is_master_node = true →
      ((get_log_writers opts env sl).writers =
        (match sl with
         | some s =>
           if opts.tensorboard_logging && env.summary_writer_available
           then [LogWriter.summaryWriter (s ++ "/tb_logs")] else []
         | none => [])
        ++ (if opts.bolt_logging && env.bolt_available
            then [LogWriter.boltLogger] else [])
        ++ (if opts.hub_logging && env.hub_available && !env.hub_init_raises
            then [LogWriter.hubLogger] else [])
        ++ (match sl with
            | some s => if opts.file_logging
                        then [LogWriter.fileLogger (s ++ "/stats.pt")] else []
            | none => []))
      ∧ (opts.bolt_logging = true →
          "BoltLogger" ∈ (get_log_writers opts env sl).imports_attempted)
      ∧ (opts.hub_logging = true →
          "HubLogger" ∈ (get_log_writers opts env sl).imports_attempted)
      ∧ (opts.tensorboard_logging = true → ∀ s, sl = some s →
          "SummaryWriter" ∈ (get_log_writers opts env sl).imports_attempted) := by
  intro opts env sl h
  obtain ⟨tb, bolt, hub, file⟩ := opts
  obtain ⟨master, sw, bolta, huba, hubr⟩ := env
  cases h
  cases sl <;> cases tb <;> cases bolt <;> cases hub <;> cases file <;>
    cases sw <;> cases bolta <;> cases huba <;> cases hubr <;>
    simp [get_log_writers]

/-- Witness for C6: with every backend configured but the tensorboard import
unavailable and the hub constructor raising, only bolt and the file logger
are returned; all three imports were still attempted. -/
theorem get_log_writers_optional_backends_witness :
    (get_log_writers ⟨true, true, true, true⟩ ⟨true, false, true, true, true⟩
        (some "/tmp/x")).writers
      = [LogWriter.boltLogger, LogWriter.fileLogger "/tmp/x/stats.pt"]
    ∧ "BoltLogger" ∈ (get_log_writers ⟨true, true, true, true⟩
        ⟨true, false, true, true, true⟩ (some "/tmp/x")).imports_attempted := by
  constructor
  · have h := (get_log_writers_optional_backends ⟨true, true, true, true⟩
      ⟨true, false, true, true, true⟩ (some "/tmp/x") rfl).1
    rw [h]
    rfl
  · exact (get_log_writers_optional_backends ⟨true, true, true, true⟩
      ⟨true, false, true, true, true⟩ (some "/tmp/x") rfl).2.1 rfl

/-- C8: when the calling process is not the master node, `get_log_writers`
returns the empty list, attempts no backend import, and creates no
directory, regardless of the option flags and of `save_location`. -/
theorem get_log_writers_non_master :
    ∀ (opts : LogOpts) (env : LogEnv) (sl : Option String),
      env.is_master_node = false →
      get_log_writers opts env sl =
        { writers := [], imports_attempted := [], dirs_created := [] } := by
  intro opts env sl h
  simp [get_log_writers, h]

/-- Witness for C8 with every logging option enabled. -/
theorem get_log_writers_non_master_witness :
    get_log_writers ⟨true, true, true, true⟩ ⟨false, true, true, true, false⟩
        (some "/tmp/x")
      = { writers := [], imports_attempted := [], dirs_created := [] } :=
  get_log_writers_non_master ⟨true, true, true, true⟩
    ⟨false, true, true, true, false⟩ (some "/tmp/x") rfl

/-- C9: a flattened metric entry is dispatched if and only if its value is a
`Number` or truthy; numeric zero is logged, `None`, the empty string and the
empty list are skipped, and a non-empty string is dispatched unchanged. -/
theorem step_log_metrics_number_or_truthy :
    (∀ (step : ℤ) m (k : String) (v : MVal),
      (k, v, step) ∈ metricCalls step m ↔
        ((k, v) ∈ flatten m "" "/" ∧ (isNumber v || truthy v) = true))
    ∧ (∀ lrs (step : ℤ) m, step_log_metrics lrs step (some m) =
        lrGroupCalls (normLrs lrs) step ++ metricCalls step m)
    ∧ isNumber (MVal.num 0) = true
    ∧ truthy MVal.vnone = false
    ∧ truthy (MVal.str "") = false
    ∧ truthy (MVal.vlist []) = false
    ∧ truthy (MVal.str "x") = true := by
  refine ⟨fun step m k v => metricCalls_mem_iff, fun lrs step m => rfl,
    rfl, rfl, ?_, rfl, ?_⟩
  · simp [truthy]
  · simp [truthy]

/-- C10: the `add_scalar` calls of `log_metrics` depend only on `lrs`,
`epoch` and `best_metric`: the loss and checkpoint-metric parameters never
change the calls, each learning rate is logged as `LR/Group-i` rounded to 6
decimal places, the best metric as `Common/Best Metric` rounded to 2 decimal
places, every call is tagged with `epoch`, and no other call is made. -/
theorem log_metrics_depends_only_on_lrs_epoch_best :
    (∀ lrs (epoch : ℤ) (best_metric : ℚ) tl vl vel cmn tcm vcm vecm tl' vl'
        vel' cmn' tcm' vcm' vecm',
      log_metrics lrs tl vl epoch best_metric vel cmn tcm vcm vecm =
        log_metrics lrs tl' vl' epoch best_metric vel' cmn' tcm' vcm' vecm')
    ∧ (∀ lrs (epoch : ℤ) (best_metric : ℚ) tl vl vel cmn tcm vcm vecm (i : ℕ)
        (h : i < (normLrs lrs).length),
        ("LR/Group-" ++ toString i,
          MVal.num (pyRound ((normLrs lrs).get ⟨i, h⟩) 6), epoch)
          ∈ log_metrics lrs tl vl epoch best_metric vel cmn tcm vcm vecm)
    ∧ (∀ lrs (epoch : ℤ) (best_metric : ℚ) tl vl vel cmn tcm vcm vecm,
        ("Common/Best Metric", MVal.num (pyRound best_metric 2), epoch)
          ∈ log_metrics lrs tl vl epoch best_metric vel cmn tcm vcm vecm)
    ∧ (∀ lrs (epoch : ℤ) (best_metric : ℚ) tl vl vel cmn tcm vcm vecm c,
        c ∈ log_metrics lrs tl vl epoch best_metric vel cmn tcm vcm vecm →
          c.2.2 = epoch ∧
            (c.1 = "Common/Best Metric" ∨ ∃ i : ℕ, c.1 = "LR/Group-" ++ toString i)) := by
  refine ⟨fun _ _ _ _ _ _ _ _ _ _ _ _ _ _ _ _ _ => rfl, ?_, ?_, ?_⟩
  · intro lrs epoch bm _ _ _ _ _ _ _ i h
    exact List.mem_append_left _ (lrGroupCalls_mem (normLrs lrs) epoch i h)
  · intro lrs epoch bm _ _ _ _ _ _ _
    exact List.mem_append_right _ (List.mem_singleton.mpr rfl)
  · intro lrs epoch bm _ _ _ _ _ _ _ c hc
    unfold log_metrics at hc
    rcases List.mem_append.mp hc with h | h
    · obtain ⟨hstep, i, hname⟩ := lrGroupCalls_shape h
      exact ⟨hstep, Or.inr ⟨i, hname⟩⟩
    · rw [List.mem_singleton] at h
      subst h
      exact ⟨rfl, Or.inl rfl⟩

/-- Witness for C10: the learning-rate call of group 0 is made, at an input
where every ignored parameter is populated. -/
theorem log_metrics_depends_only_on_lrs_epoch_best_witness :
    ("LR/Group-" ++ toString 0, MVal.num (pyRound 0 6), (5 : ℤ))
      ∈ log_metrics (.list [0]) 1 2 5 (3 / 2) (some 1) (some "x") (some 1)
          (some 1) (some 1) := by
  exact log_metrics_depends_only_on_lrs_epoch_best.2.1 (.list [0]) 5 (3 / 2) 1 2
    (some 1) (some "x") (some 1) (some 1) (some 1) 0 (by simp [normLrs])

theorem store_alloc_length (st : Store) (o : Obj) :
    (st.alloc o).1.mem.length = st.mem.length + 1 := by
  simp [Store.alloc]

theorem store_read_alloc {st : Store} {o : Obj} {i : ℕ}
    (h : i < st.mem.length) : (st.alloc o).1.read i = st.read i := by
  simp only [Store.alloc, Store.read]
  exact List.getElem?_append_left h

theorem appendItems_frame {st st' : Store} {itemsA : Addr}
    {xs : List (String × HVal)} (h : appendItems st itemsA xs = some st') :
    st'.mem.length = st.mem.length ∧ ∀ i, i ≠ itemsA → st'.read i = st.read i := by
  unfold appendItems at h
  split at h
  · cases h
    constructor
    · simp [Store.write, List.length_set]
    · intro i hi
      simp only [Store.write, Store.read]
      exact List.getElem?_set_ne (Ne.symm hi)
  · exact Option.noConfusion h

theorem flattenLoop_frame (fuel : ℕ)
    (hS : ∀ st a p s st' r, flattenS fuel st a p s = some (st', r) →
      st.mem.length ≤ st'.mem.length ∧
        ∀ i, i < st.mem.length → st'.read i = st.read i) :
    ∀ (es : List (String × HVal)) st itemsA p s st',
      flattenLoop fuel st itemsA es p s = some st' →
      st.mem.length ≤ st'.mem.length ∧
        ∀ i, i < st.mem.length → i ≠ itemsA → st'.read i = st.read i := by
  intro es
  induction es with
  | nil =>
    intro st itemsA p s st' h
    rw [flattenLoop] at h
    cases h
    exact ⟨le_refl _, fun i _ _ => rfl⟩
  | cons kv rest ih =>
    intro st itemsA p s st' h
    obtain ⟨key, value⟩ := kv
    rw [flattenLoop] at h
    split at h
    · rename_i b hb
      split at h
      · exact Option.noConfusion h
      · rename_i st1 innerA hfS
        split at h
        · rename_i innerItems hread
          split at h
          · exact Option.noConfusion h
          · rename_i st2 hApp
            have h1 := hS st b _ s st1 innerA hfS
            have h2 := appendItems_frame hApp
            have h3 := ih st2 itemsA p s st' h
            constructor
            · omega
            · intro i hi hne
              rw [h3.2 i (by omega) hne, h2.2 i hne, h1.2 i hi]
        · exact Option.noConfusion h
    · split at h
      · exact Option.noConfusion h
      · rename_i st2 hApp
        have h2 := appendItems_frame hApp
        have h3 := ih st2 itemsA p s st' h
        constructor
        · omega
        · intro i hi hne
          rw [h3.2 i (by omega) hne, h2.2 i hne]

theorem flattenS_frame :
    ∀ fuel st a p s st' r, flattenS fuel st a p s = some (st', r) →
      st.mem.length ≤ st'.mem.length ∧
        ∀ i, i < st.mem.length → st'.read i = st.read i := by
  intro fuel
  induction fuel with
  | zero =>
    intro st a p s st' r h
    rw [flattenS] at h
    exact Option.noConfusion h
  | succ f ihf =>
    intro st a p s st' r h
    rw [flattenS] at h
    split at h
    · rename_i entries hread
      simp only [Store.alloc] at h
      split at h
      · exact Option.noConfusion h
      · rename_i st2 hloop
        split at h
        · rename_i items hitems
          cases h
          have hL := flattenLoop_frame f ihf entries ⟨st.mem ++ [Obj.pairsObj []]⟩
            st.mem.length p s st2 hloop
          have hlenL : st.mem.length + 1 ≤ st2.mem.length := by
            have h1 := hL.1
            simpa using h1
          constructor
          · show st.mem.length ≤ (st2.mem ++ [Obj.dictObj (dictOfList items)]).length
            simp
            omega
          · intro i hi
            have e1 : (⟨st2.mem ++ [Obj.dictObj (dictOfList items)]⟩ : Store).read i
                = st2.read i := by
              simp only [Store.read]
              exact List.getElem?_append_left (by omega)
            have hi1 : i < ({ mem := st.mem ++ [Obj.pairsObj []] } : Store).mem.length := by
              simp
              omega
            show (⟨st2.mem ++ [Obj.dictObj (dictOfList items)]⟩ : Store).read i = st.read i
            rw [e1, hL.2 i hi1 (by omega)]
            simp only [Store.read]
            exact List.getElem?_append_left hi
        · exact Option.noConfusion h
    · exact Option.noConfusion h

theorem get_batch_sizeS_pure :
    ∀ fuel st x st' r, get_batch_sizeS fuel st x = some (st', r) → st' = st := by
  intro fuel
  induction fuel with
  | zero =>
    intro st x st' r h
    rw [get_batch_sizeS] at h
    exact Option.noConfusion h
  | succ f ih =>
    intro st x st' r h
    cases x with
    | num q =>
      rw [get_batch_sizeS] at h
      · cases h; rfl
      · simp
    | str s =>
      rw [get_batch_sizeS] at h
      · cases h; rfl
      · simp
    | hnone =>
      rw [get_batch_sizeS] at h
      · cases h; rfl
      · simp
    | ref a =>
      rw [get_batch_sizeS] at h
      split at h
      · cases h; rfl
      · cases h; rfl
      · split at h
        · exact ih st _ st' r h
        · cases h; rfl
      · cases h; rfl
      · cases h; rfl

theorem normLrsS_frame (st : Store) (lrs : HVal) :
    st.mem.length ≤ (normLrsS st lrs).1.mem.length ∧
      ∀ i, i < st.mem.length → (normLrsS st lrs).1.read i = st.read i := by
  unfold normLrsS
  split
  · split
    · exact ⟨le_refl _, fun i _ => rfl⟩
    · refine ⟨by simp [Store.alloc], fun i hi => store_read_alloc hi⟩
  · refine ⟨by simp [Store.alloc], fun i hi => store_read_alloc hi⟩

theorem step_log_metricsS_frame :
    ∀ fuel st lrs step metrics st' calls,
      step_log_metricsS fuel st lrs step metrics = some (st', calls) →
      st.mem.length ≤ st'.mem.length ∧
        ∀ i, i < st.mem.length → st'.read i = st.read i := by
  intro fuel st lrs step metrics st' calls h
  unfold step_log_metricsS at h
  have hn := normLrsS_frame st lrs
  split at h
  · exact Option.noConfusion h
  · split at h
    · cases h
      exact hn
    · rename_i m
      split at h
      · exact Option.noConfusion h
      · rename_i st2 flatA hfS
        have hF := flattenS_frame fuel (normLrsS st lrs).1 m "" "/" st2 flatA hfS
        split at h
        · cases h
          refine ⟨by omega, fun i hi => ?_⟩
          rw [hF.2 i (by omega), hn.2 i hi]
        · exact Option.noConfusion h
    · exact Option.noConfusion h

theorem log_metricsS_frame :
    ∀ st lrs tl vl epoch bm vel cmn tcm vcm vecm st' calls,
      log_metricsS st lrs tl vl epoch bm vel cmn tcm vcm vecm = some (st', calls) →
      st.mem.length ≤ st'.mem.length ∧
        ∀ i, i < st.mem.length → st'.read i = st.read i := by
  intro st lrs tl vl epoch bm vel cmn tcm vcm vecm st' calls h
  unfold log_metricsS at h
  have hn := normLrsS_frame st lrs
  split at h
  · exact Option.noConfusion h
  · cases h
    exact hn

/-- C7: no helper mutates its argument containers: a successful run of the
heap embedding of `flatten`, `get_batch_size`, `step_log_metrics` or
`log_metrics` leaves every pre-existing store address unchanged (the only
object ever written is the freshly allocated `items` list of `flatten`, and
normalising a scalar `lrs` only allocates a fresh singleton list). -/
theorem utils_functions_do_not_mutate_arguments :
    (∀ fuel st a p s st' r, flattenS fuel st a p s = some (st', r) →
      ∀ i, i < st.mem.length → st'.read i = st.read i)
    ∧ (∀ fuel st x st' r, get_batch_sizeS fuel st x = some (st', r) → st' = st)
    ∧ (∀ fuel st lrs step metrics st' calls,
        step_log_metricsS fuel st lrs step metrics = some (st', calls) →
        ∀ i, i < st.mem.length → st'.read i = st.read i)
    ∧ (∀ st lrs tl vl epoch bm vel cmn tcm vcm vecm st' calls,
        log_metricsS st lrs tl vl epoch bm vel cmn tcm vcm vecm
          = some (st', calls) →
        ∀ i, i < st.mem.length → st'.read i = st.read i) :=
  ⟨fun fuel st a p s st' r h => (flattenS_frame fuel st a p s st' r h).2,
   get_batch_sizeS_pure,
   fun fuel st lrs step metrics st' calls h =>
     (step_log_metricsS_frame fuel st lrs step metrics st' calls h).2,
   fun st lrs tl vl epoch bm vel cmn tcm vcm vecm st' calls h =>
     (log_metricsS_frame st lrs tl vl epoch bm vel cmn tcm vcm vecm st' calls h).2⟩

/-- Witness for C7: flattening a one-entry dictionary on a concrete heap
succeeds and leaves the input dictionary's address unchanged. -/
theorem utils_functions_do_not_mutate_arguments_witness :
    ∃ res : Store × Addr,
      flattenS 1 ⟨[Obj.dictObj [("a", HVal.num 1)]]⟩ 0 "" "/" = some res ∧
      res.1.read 0 = some (Obj.dictObj [("a", HVal.num 1)]) := by
  have hrun : flattenS 1 ⟨[Obj.dictObj [("a", HVal.num 1)]]⟩ 0 "" "/"
      = some (⟨[Obj.dictObj [("a", HVal.num 1)], Obj.pairsObj [("a", HVal.num 1)],
          Obj.dictObj [("a", HVal.num 1)]]⟩, 2) := by
    simp [flattenS, flattenLoop, Store.read, Store.alloc, Store.write,
      appendItems, isDictRef, dictOfList, insertPair]
  refine ⟨_, hrun, ?_⟩
  have h := utils_functions_do_not_mutate_arguments.1 1
    ⟨[Obj.dictObj [("a", HVal.num 1)]]⟩ 0 "" "/" _ 2 hrun 0 (by simp)
  rw [h]
  rfl

end Corenet
